import Mathlib

/-!
Verification of the `deeprl` repository (TD3 demo) against its specification.

The visible source is:
* `src/deeprl/actor_critic_methods/neural_network/mlp.py` — `Actor`, `Critic`,
  `_init_weights`;
* `demo/train_td3.py` — the training loop (precision alignment, episode loop,
  metric logging, periodic checkpointing).

Networks are embedded over `ℝ` (tensors as lists of reals); the training loop
over `ℚ` (scalar rewards).  The TD3 agent class, the `UER` replay buffer and
the noise generators are not part of the visible source; where a claim is
about them, the definition is modelled from the spec and marked as such.
-/

namespace DeepRL

/-! ## Neural network embedding (mlp.py) -/

/-- Dot product of two real vectors (`torch` matrix-vector row product). -/
def dot (w v : List ℝ) : ℝ :=
  (List.zipWith (fun a b => a * b) w v).sum

/-- An `nn.Linear` layer: a weight matrix (`out_dim` rows of length `in_dim`)
and a bias vector (length `out_dim`). -/
structure Layer where
  weight : List (List ℝ)
  bias : List ℝ

/-- Applying an `nn.Linear` layer to a vector: `y = W x + b`, one output
component per (row, bias) pair. -/
def Layer.apply (l : Layer) (v : List ℝ) : List ℝ :=
  List.zipWith (fun w b => dot w v + b) l.weight l.bias

/-- `Actor` of mlp.py: a list of linear layers `_lyrs`, an activation
function `_actv_fn` and an output function `_out_fn`. -/
structure Actor where
  _lyrs : List Layer
  _actv_fn : ℝ → ℝ
  _out_fn : ℝ → ℝ

/-- The loop body of `Actor.forward` (mlp.py lines 40-47): the activation
function is applied after every layer whose 1-based position differs from
`len(self._lyrs)`, and the output function after the last layer.  An empty
layer list leaves the input unchanged, exactly as the Python `for` loop
would. -/
def forwardLoop (actv_fn out_fn : ℝ → ℝ) : List Layer → List ℝ → List ℝ
  | [], v => v
  | [lyr], v => (lyr.apply v).map out_fn
  | lyr :: l2 :: rest, v => forwardLoop actv_fn out_fn (l2 :: rest) ((lyr.apply v).map actv_fn)

/-- `Actor.forward` (mlp.py lines 30-49). -/
def Actor.forward (A : Actor) (state : List ℝ) : List ℝ :=
  forwardLoop A._actv_fn A._out_fn A._lyrs state

/-- `Critic` of mlp.py: a list of linear layers `_lyrs` and an activation
function `_actv_fn`. -/
structure Critic where
  _lyrs : List Layer
  _actv_fn : ℝ → ℝ

/-- The loop body of `Critic.forward` (mlp.py lines 71-74): activation after
every layer of `self._lyrs[:-1]`, then the raw last layer.  (On an empty layer
list Python would raise `IndexError` on `self._lyrs[-1]`; constructed critics
always have at least one layer, and the `[]` case below is never reached by
them.) -/
def criticLoop (actv_fn : ℝ → ℝ) : List Layer → List ℝ → List ℝ
  | [], v => v
  | [lyr], v => lyr.apply v
  | lyr :: l2 :: rest, v => criticLoop actv_fn (l2 :: rest) ((lyr.apply v).map actv_fn)

/-- `Critic.forward` (mlp.py lines 69-76): concatenate `state` and `action`
along the feature dimension, then run the layer loop. -/
def Critic.forward (C : Critic) (state action : List ℝ) : List ℝ :=
  criticLoop C._actv_fn C._lyrs (state ++ action)

/-- The "activation after every hidden layer" composition: folds
`actv_fn ∘ layer` over a list of layers. -/
def hiddenPass (actv_fn : ℝ → ℝ) (ls : List Layer) (v : List ℝ) : List ℝ :=
  ls.foldl (fun a l => (l.apply a).map actv_fn) v

/-! ### Construction and weight initialization -/

/-- The `dims` list of consecutive (in_dim, out_dim) pairs built in
`Actor.__init__` / `Critic.__init__`:
`dims = [first] + hidden_dims + [last]`, zipped with its own tail. -/
def layerDims (first : ℕ) (hidden : List ℕ) (last : ℕ) : List (ℕ × ℕ) :=
  let dims := first :: (hidden ++ [last])
  dims.zip dims.tail

/-- `nn.Linear(in_dim, out_dim)` with PyTorch's default initialization,
abstracted as sampler functions `defW`/`defB` from the layer shape. -/
def mkLinear (defW : ℕ → ℕ → List (List ℝ)) (defB : ℕ → ℕ → List ℝ)
    (p : ℕ × ℕ) : Layer :=
  ⟨defW p.1 p.2, defB p.1 p.2⟩

/-- `_init_weights` (mlp.py lines 79-82): on an `nn.Linear` module it replaces
the weight with a fresh Xavier-uniform sample (abstracted as the sampler
`xavierW`, shape-determined) and leaves the bias untouched.  The shape pair
`p` is the layer's own (in_dim, out_dim), from which `xavier_uniform_`
computes its fan-in/fan-out. -/
def _init_weights (xavierW : ℕ → ℕ → List (List ℝ)) (p : ℕ × ℕ) (l : Layer) : Layer :=
  { l with weight := xavierW p.1 p.2 }

/-- `Actor.__init__` (mlp.py lines 12-28): build
`dims = [state_dim] + hidden_dims + [action_dim]`, create one `nn.Linear`
per consecutive pair, then `self.apply(_init_weights)` over every layer. -/
def mkActor (defW xavierW : ℕ → ℕ → List (List ℝ)) (defB : ℕ → ℕ → List ℝ)
    (state_dim action_dim : ℕ) (hidden_dims : List ℕ)
    (activation_fn output_fn : ℝ → ℝ) : Actor :=
  let ps := layerDims state_dim hidden_dims action_dim
  let lyrs0 := ps.map (mkLinear defW defB)
  { _lyrs := (ps.zip lyrs0).map (fun q => _init_weights xavierW q.1 q.2)
    _actv_fn := activation_fn
    _out_fn := output_fn }

/-- `Critic.__init__` (mlp.py lines 53-67): build
`dims = [state_dim + action_dim] + hidden_dims + [1]`, create one `nn.Linear`
per consecutive pair, then `self.apply(_init_weights)` over every layer. -/
def mkCritic (defW xavierW : ℕ → ℕ → List (List ℝ)) (defB : ℕ → ℕ → List ℝ)
    (state_dim action_dim : ℕ) (hidden_dims : List ℕ)
    (activation_fn : ℝ → ℝ) : Critic :=
  let ps := layerDims (state_dim + action_dim) hidden_dims 1
  let lyrs0 := ps.map (mkLinear defW defB)
  { _lyrs := (ps.zip lyrs0).map (fun q => _init_weights xavierW q.1 q.2)
    _actv_fn := activation_fn }

/-! ## Transition buffer (UER)

The `UER` class itself is not part of the visible source (only its
construction site `UER(td3_cfg.memory_capacity)` in demo/train_td3.py); it is
modelled from the spec below. -/

/-- Modelled from the spec: the `UER` uniform experience replay buffer, whose
implementation is missing from the visible source.  Per §3 and §9 it is "a
fixed-size array plus a write cursor": a fixed `capacity`, the stored
elements `data`, and the write `cursor` pointing at the oldest slot once
full. -/
structure UER (α : Type) where
  capacity : ℕ
  data : List α
  cursor : ℕ

/-- Modelled from the spec: a freshly constructed buffer of the given
capacity is empty, with the write cursor at the start. -/
def UER.empty (α : Type) (c : ℕ) : UER α :=
  ⟨c, [], 0⟩

/-- Modelled from the spec (§4.1): `insert` always succeeds, is O(1), and
"overwrites oldest slot once at capacity" — while not yet full it appends,
once full it overwrites the slot under the cursor and advances the cursor in
ring order. -/
def UER.insert {α : Type} (b : UER α) (x : α) : UER α :=
  if b.data.length < b.capacity then
    { b with data := b.data ++ [x] }
  else
    { b with data := b.data.set b.cursor x, cursor := (b.cursor + 1) % b.capacity }

/-- Inserting a list of elements in order, oldest first. -/
def UER.insertAll {α : Type} (b : UER α) (xs : List α) : UER α :=
  xs.foldl UER.insert b

/-- The ring-buffer invariant tying a buffer state to the full insertion
history `xs`: while not yet full the data is exactly the history and the
cursor still at the start; once full the buffer holds `capacity` elements
and, read in ring order from the cursor, they are the most recent
`capacity` elements of the history, oldest first. -/
def UER.ringGood {α : Type} (c : ℕ) (xs : List α) (b : UER α) : Prop :=
  b.capacity = c ∧
  ((xs.length < c ∧ b.data = xs ∧ b.cursor = 0) ∨
   (c ≤ xs.length ∧ b.data.length = c ∧ b.cursor = (xs.length - c) % c ∧
     b.data.rotate b.cursor = xs.drop (xs.length - c)))

/-! ## Precision alignment (demo/train_td3.py lines 29-39) -/

/-- Numpy dtypes an observation space may carry. -/
inductive NpDtype where
  | float64
  | float32
  | float16
  | int64
  | int32
  | bool_
  deriving DecidableEq

/-- Torch default floating-point dtypes selectable by
`torch.set_default_dtype`. -/
inductive TorchDtype where
  | float64
  | float32
  deriving DecidableEq

/-- The precision-alignment branch of `train` (demo/train_td3.py lines
31-37): `np.float64` and `np.float32` select the matching torch default
dtype; any other observation-space dtype raises `TypeError`. -/
def precisionAlignment (d : NpDtype) : Except String TorchDtype :=
  match d with
  | .float64 => .ok .float64
  | .float32 => .ok .float32
  | _ => .error "Unexpected data type of an observation space."

/-- The agent as far as this fragment observes it: constructing it records
the torch default dtype in force. -/
structure AgentStub where
  dtype : TorchDtype
  deriving DecidableEq

/-- The setup order of `train` for a numpy-based env (demo/train_td3.py
lines 29-56): the dtype check runs first, and only if it succeeds is the
agent constructed (the `TD3(...)` call at line 41). -/
def setupNumpyEnv (d : NpDtype) : Except String AgentStub :=
  match precisionAlignment d with
  | .ok dt => .ok { dtype := dt }
  | .error e => .error e

/-! ## The training loop (demo/train_td3.py lines 60-89)

The environment is embedded as a response function: given the step index
within the episode, the current state and the chosen action, it returns the
next state, the reward and the `terminated` / `truncated` flags.  The agent's
policy is an opaque function `S → A` (the TD3 class is outside the visible
source); the loop records every call it makes into the agent. -/

/-- One `env.step` result: `(next_state, reward, terminated, truncated)`.
The scalar reward type `R` abstracts the floating-point scalars of the
source. -/
structure StepRes (R S : Type) where
  next_state : S
  reward : R
  terminated : Bool
  truncated : Bool
  deriving DecidableEq

/-- A call the training loop makes into the agent: `agent.compute_action`
(line 65) or `agent.step` (line 75).  The `terminal` argument of `step`
records exactly what the loop passes: the env's `terminated` flag. -/
inductive AgentCall (R S A : Type) where
  | computeAction (state : S) (action : A)
  | step (state : S) (action : A) (reward : R) (next_state : S) (terminal : Bool)
  deriving DecidableEq

/-- What one episode produces: the accumulated `episodic_return`, the ordered
list of agent calls, and the ordered list of env step results. -/
structure EpisodeRes (R S A : Type) where
  episodicReturn : R
  calls : List (AgentCall R S A)
  trace : List (StepRes R S)
  deriving DecidableEq

/-- The `while True` episode body (demo/train_td3.py lines 64-79), with fuel
to make the recursion total: compute the action, step the env, accumulate the
reward into `episodic_return`, record the `agent.step` call with
`terminal := terminated`, and break exactly when `terminated or truncated`. -/
def episodeLoop {R S A : Type} [AddCommMonoid R] (pol : S → A) (env : ℕ → S → A → StepRes R S) :
    ℕ → S → R → List (AgentCall R S A) → List (StepRes R S) → ℕ → Option (EpisodeRes R S A)
  | _, _, _, _, _, 0 => none
  | t, s, ret, calls, trace, fuel + 1 =>
    let a := pol s
    let res := env t s a
    let ret2 := ret + res.reward
    let calls2 := calls ++ [.computeAction s a, .step s a res.reward res.next_state res.terminated]
    let trace2 := trace ++ [res]
    if res.terminated || res.truncated then
      some ⟨ret2, calls2, trace2⟩
    else
      episodeLoop pol env (t + 1) res.next_state ret2 calls2 trace2 fuel

/-- One full episode starting from `env.reset()`'s state, with
`episodic_return` initialized to zero (line 62). -/
def runEpisode {R S A : Type} [AddCommMonoid R] (pol : S → A) (env : ℕ → S → A → StepRes R S)
    (s0 : S) (fuel : ℕ) : Option (EpisodeRes R S A) :=
  episodeLoop pol env 0 s0 0 [] [] fuel

/-- The networks a TD3 agent owns.  Modelled from the spec (§3): the agent's
`_policy` attribute saved at demo/train_td3.py line 88 is the online Actor
("only the online Actor is checkpointed"). -/
inductive NetKind where
  | actor
  | critic1
  | critic2
  | targetActor
  | targetCritic1
  | targetCritic2
  deriving DecidableEq

/-- An observable event of the training loop: the per-episode scalar metric
(`writer.add_scalar`, line 83) or a checkpoint save of one network
(lines 86-89). -/
inductive TrainEv (R : Type) where
  | metric (episode : ℕ) (value : R)
  | checkpoint (episode : ℕ) (net : NetKind)
  deriving DecidableEq

/-- The post-episode tail of the loop body (demo/train_td3.py lines 81-89):
log the episodic return, then checkpoint the agent's `_policy` (the online
Actor) exactly when `episode % 20 == 0`. -/
def episodeEvents {R : Type} (episode : ℕ) (ret : R) : List (TrainEv R) :=
  [.metric episode ret] ++
    (if episode % 20 == 0 then [.checkpoint episode .actor] else [])

/-- The episode loop over `range(num_episodes)` (line 60), carried by the
current episode index and the number of episodes remaining. -/
def trainLoopAux {R S A : Type} [AddCommMonoid R] (pol : S → A)
    (env : ℕ → ℕ → S → A → StepRes R S) (reset : ℕ → S) (fuel : ℕ) :
    ℕ → ℕ → List (TrainEv R) → Option (List (TrainEv R))
  | _, 0, evs => some evs
  | e, r + 1, evs =>
    match runEpisode pol (env e) (reset e) fuel with
    | none => none
    | some res => trainLoopAux pol env reset fuel (e + 1) r (evs ++ episodeEvents e res.episodicReturn)

/-- The whole training loop of `train` (demo/train_td3.py lines 60-89),
returning the ordered list of observable events. -/
def trainLoop {R S A : Type} [AddCommMonoid R] (pol : S → A)
    (env : ℕ → ℕ → S → A → StepRes R S) (reset : ℕ → S) (numEpisodes fuel : ℕ) :
    Option (List (TrainEv R)) :=
  trainLoopAux pol env reset fuel 0 numEpisodes []

/-- The event blocks of a run, episode by episode (used to decompose
`trainLoop`). -/
def episodesEvents {R S A : Type} [AddCommMonoid R] (pol : S → A)
    (env : ℕ → ℕ → S → A → StepRes R S) (reset : ℕ → S) (fuel : ℕ) :
    ℕ → ℕ → Option (List (TrainEv R))
  | _, 0 => some []
  | e, r + 1 =>
    match runEpisode pol (env e) (reset e) fuel with
    | none => none
    | some res =>
      match episodesEvents pol env reset fuel (e + 1) r with
      | none => none
      | some rest => some (episodeEvents e res.episodicReturn ++ rest)

/-- Whether a training event is a checkpoint save. -/
def TrainEv.isCheckpoint {R : Type} : TrainEv R → Bool
  | .checkpoint _ _ => true
  | _ => false

/-- Whether a training event is the scalar metric of episode `e`. -/
def TrainEv.isMetricFor {R : Type} (e : ℕ) : TrainEv R → Bool
  | .metric e2 _ => e2 == e
  | _ => false

/-- The two agent calls one environment interaction produces. -/
def callBlock {R S A : Type} (s : S) (a : A) (r : StepRes R S) : List (AgentCall R S A) :=
  [.computeAction s a, .step s a r.reward r.next_state r.terminated]

/-- The strictly alternating call sequence generated by a list of
interactions, each a (state, action) pair with its env step result. -/
def callsFor {R S A : Type} : List ((S × A) × StepRes R S) → List (AgentCall R S A)
  | [] => []
  | p :: rest => callBlock p.1.1 p.1.2 p.2 ++ callsFor rest

/-! ### Concrete demo runs (used to evaluate the loop theorems) -/

/-- An opaque policy stand-in over `ℕ` states. -/
def demoPol (s : ℕ) : ℕ :=
  s

/-- An environment that terminates every episode after one step with
reward 1 (integer rewards, so the runs evaluate by `decide`). -/
def demoEnv (_e _t _s _a : ℕ) : StepRes ℤ ℕ :=
  ⟨0, 1, true, false⟩

/-- An environment whose episode runs for two steps and then terminates. -/
def demoEnv2 (t _s _a : ℕ) : StepRes ℤ ℕ :=
  if t = 0 then ⟨1, 2, false, false⟩ else ⟨2, 3, true, false⟩

/-- An environment that truncates (without terminating) after one step. -/
def demoEnvTrunc (_t _s _a : ℕ) : StepRes ℤ ℕ :=
  ⟨0, 1, false, true⟩

/-- A reset function returning state 0 for every episode. -/
def demoReset (_e : ℕ) : ℕ :=
  0

/-- The event list of a concrete 21-episode run. -/
def demoEvs : List (TrainEv ℤ) :=
  (trainLoop demoPol demoEnv demoReset 21 1).getD []

/-- The episode result of a concrete two-step episode. -/
def demoEp : EpisodeRes ℤ ℕ ℕ :=
  (runEpisode demoPol demoEnv2 0 2).getD ⟨0, [], []⟩

/-- The episode result of a concrete truncated episode. -/
def demoEpTrunc : EpisodeRes ℤ ℕ ℕ :=
  (runEpisode demoPol demoEnvTrunc 0 1).getD ⟨0, [], []⟩

/-! ### Concrete sampler instances (used to evaluate the theorems) -/

/-- A shape-correct all-ones weight sampler. -/
def onesW (i o : ℕ) : List (List ℝ) :=
  List.replicate o (List.replicate i 1)

/-- A shape-correct all-zeros bias sampler. -/
def zerosB (_i o : ℕ) : List ℝ :=
  List.replicate o 0

/-- A degenerate default-weight sampler (irrelevant: construction overwrites
every weight). -/
def emptyW (_i _o : ℕ) : List (List ℝ) :=
  []

/-! ### Basic lemmas about the forward passes -/

theorem hiddenPass_nil (actv_fn : ℝ → ℝ) (v : List ℝ) : hiddenPass actv_fn [] v = v := rfl

theorem hiddenPass_cons (actv_fn : ℝ → ℝ) (l : Layer) (t : List Layer) (v : List ℝ) :
    hiddenPass actv_fn (l :: t) v = hiddenPass actv_fn t ((l.apply v).map actv_fn) := rfl

theorem forwardLoop_last (actv_fn out_fn : ℝ → ℝ) (init : List Layer) (lastL : Layer) :
    ∀ v, forwardLoop actv_fn out_fn (init ++ [lastL]) v =
      (lastL.apply (hiddenPass actv_fn init v)).map out_fn := by
  induction init with
  | nil => intro v; rfl
  | cons l t ih =>
      intro v
      cases t with
      | nil => simpa [forwardLoop, hiddenPass_cons] using ih ((l.apply v).map actv_fn)
      | cons l2 t2 => simpa [forwardLoop, hiddenPass_cons] using ih ((l.apply v).map actv_fn)

theorem criticLoop_last (actv_fn : ℝ → ℝ) (init : List Layer) (lastL : Layer) :
    ∀ v, criticLoop actv_fn (init ++ [lastL]) v =
      lastL.apply (hiddenPass actv_fn init v) := by
  induction init with
  | nil => intro v; rfl
  | cons l t ih =>
      intro v
      cases t with
      | nil => simpa [criticLoop, hiddenPass_cons] using ih ((l.apply v).map actv_fn)
      | cons l2 t2 => simpa [criticLoop, hiddenPass_cons] using ih ((l.apply v).map actv_fn)

/-- `tanh` maps every real into `[-1, 1]`. -/
theorem tanh_mem_Icc (x : ℝ) : Real.tanh x ∈ Set.Icc (-1 : ℝ) 1 := by
  have hc : 0 < Real.cosh x := Real.cosh_pos x
  have h1 : Real.sinh x < Real.cosh x := Real.sinh_lt_cosh x
  have h2 : Real.sinh (-x) < Real.cosh (-x) := Real.sinh_lt_cosh (-x)
  rw [Real.sinh_neg, Real.cosh_neg] at h2
  rw [Real.tanh_eq_sinh_div_cosh]
  constructor
  · rw [le_div_iff₀ hc]; nlinarith
  · rw [div_le_one hc]; exact le_of_lt h1

/-! ### Construction lemmas -/

theorem layerDims_nil (f last : ℕ) : layerDims f [] last = [(f, last)] := rfl

theorem layerDims_cons (f x last : ℕ) (t : List ℕ) :
    layerDims f (x :: t) last = (f, x) :: layerDims x t last := rfl

theorem layerDims_concat (f : ℕ) (hidden : List ℕ) (last : ℕ) :
    ∃ init q, layerDims f hidden last = init ++ [(q, last)] := by
  induction hidden generalizing f with
  | nil => exact ⟨[], f, rfl⟩
  | cons x t ih =>
      obtain ⟨init, q, h⟩ := ih x
      exact ⟨(f, x) :: init, q, by rw [layerDims_cons, h]; rfl⟩

theorem zip_map_init (xavierW defW : ℕ → ℕ → List (List ℝ)) (defB : ℕ → ℕ → List ℝ)
    (ps : List (ℕ × ℕ)) :
    (ps.zip (ps.map (mkLinear defW defB))).map (fun q => _init_weights xavierW q.1 q.2)
      = ps.map (fun p => Layer.mk (xavierW p.1 p.2) (defB p.1 p.2)) := by
  induction ps with
  | nil => rfl
  | cons p t ih =>
      simp only [List.map_cons, List.zip_cons_cons, ih]
      rfl

theorem mkActor_lyrs (defW xavierW : ℕ → ℕ → List (List ℝ)) (defB : ℕ → ℕ → List ℝ)
    (state_dim action_dim : ℕ) (hidden_dims : List ℕ) (activation_fn output_fn : ℝ → ℝ) :
    (mkActor defW xavierW defB state_dim action_dim hidden_dims activation_fn output_fn)._lyrs
      = (layerDims state_dim hidden_dims action_dim).map
          (fun p => Layer.mk (xavierW p.1 p.2) (defB p.1 p.2)) := by
  simp [mkActor, zip_map_init]

theorem mkCritic_lyrs (defW xavierW : ℕ → ℕ → List (List ℝ)) (defB : ℕ → ℕ → List ℝ)
    (state_dim action_dim : ℕ) (hidden_dims : List ℕ) (activation_fn : ℝ → ℝ) :
    (mkCritic defW xavierW defB state_dim action_dim hidden_dims activation_fn)._lyrs
      = (layerDims (state_dim + action_dim) hidden_dims 1).map
          (fun p => Layer.mk (xavierW p.1 p.2) (defB p.1 p.2)) := by
  simp [mkCritic, zip_map_init]

/-- The number of outputs of a layer is the number of (row, bias) pairs. -/
theorem Layer.apply_length (l : Layer) (v : List ℝ) :
    (l.apply v).length = min l.weight.length l.bias.length := by
  simp [Layer.apply]

/-! ## Claim theorems -/

/-- C1: `Actor.forward` is the composition of the linear layers with the
activation function applied after every layer except the last and the output
function applied after the last layer; with the configured bounded output
function (`tanh`, as the demo constructs it) every component of the returned
action lies in `[-1, 1]`. -/
theorem actor_forward_spec_and_bounded (A : Actor) (init : List Layer) (lastL : Layer)
    (state : List ℝ) (hl : A._lyrs = init ++ [lastL]) (hout : A._out_fn = Real.tanh) :
    A.forward state = (lastL.apply (hiddenPass A._actv_fn init state)).map A._out_fn ∧
    ∀ y ∈ A.forward state, y ∈ Set.Icc (-1 : ℝ) 1 := by
  have hfwd : A.forward state = (lastL.apply (hiddenPass A._actv_fn init state)).map A._out_fn := by
    rw [Actor.forward, hl, forwardLoop_last]
  refine ⟨hfwd, ?_⟩
  intro y hy
  rw [hfwd, hout] at hy
  obtain ⟨x, -, rfl⟩ := List.mem_map.1 hy
  exact tanh_mem_Icc x

/-- Witness for C1, on a one-layer tanh actor. -/
theorem actor_forward_spec_and_bounded_witness :
    (Actor.mk [Layer.mk [[1]] [0]] id Real.tanh).forward [0]
        = ((Layer.mk [[1]] [0]).apply (hiddenPass id [] [0])).map Real.tanh ∧
    ∀ y ∈ (Actor.mk [Layer.mk [[1]] [0]] id Real.tanh).forward [0],
      y ∈ Set.Icc (-1 : ℝ) 1 :=
  actor_forward_spec_and_bounded (Actor.mk [Layer.mk [[1]] [0]] id Real.tanh)
    [] (Layer.mk [[1]] [0]) [0] rfl rfl

/-- C5: `Actor.forward` is deterministic — for a fixed actor, equal state
inputs give equal action outputs; the forward pass draws no randomness. -/
theorem actor_forward_deterministic (A : Actor) (s1 s2 : List ℝ) (h : s1 = s2) :
    A.forward s1 = A.forward s2 := by
  rw [h]

/-- Witness for C5. -/
theorem actor_forward_deterministic_witness :
    (Actor.mk [Layer.mk [[1]] [0]] id Real.tanh).forward [1]
      = (Actor.mk [Layer.mk [[1]] [0]] id Real.tanh).forward [1] :=
  actor_forward_deterministic (Actor.mk [Layer.mk [[1]] [0]] id Real.tanh) [1] [1] rfl

/-- C4: `Critic.forward` concatenates state and action along the feature
dimension, applies the activation function after every layer except the last,
returns the raw output of the final linear layer (no bounding activation),
and — the final layer having output dimension 1 — that output is a single
scalar per input pair. -/
theorem critic_forward_scalar (defW xavierW : ℕ → ℕ → List (List ℝ)) (defB : ℕ → ℕ → List ℝ)
    (state_dim action_dim : ℕ) (hidden_dims : List ℕ) (activation_fn : ℝ → ℝ)
    (state action : List ℝ)
    (hW : ∀ i o, (xavierW i o).length = o) (hB : ∀ i o, (defB i o).length = o) :
    (∃ init lastL,
      (mkCritic defW xavierW defB state_dim action_dim hidden_dims activation_fn)._lyrs
          = init ++ [lastL] ∧
      (mkCritic defW xavierW defB state_dim action_dim hidden_dims activation_fn).forward
          state action
        = lastL.apply (hiddenPass activation_fn init (state ++ action))) ∧
    ((mkCritic defW xavierW defB state_dim action_dim hidden_dims activation_fn).forward
        state action).length = 1 := by
  obtain ⟨initd, q, hd⟩ := layerDims_concat (state_dim + action_dim) hidden_dims 1
  have hlyrs : (mkCritic defW xavierW defB state_dim action_dim hidden_dims activation_fn)._lyrs
      = initd.map (fun p => Layer.mk (xavierW p.1 p.2) (defB p.1 p.2))
          ++ [Layer.mk (xavierW q 1) (defB q 1)] := by
    rw [mkCritic_lyrs, hd, List.map_append]; rfl
  have hfwd : (mkCritic defW xavierW defB state_dim action_dim hidden_dims activation_fn).forward
      state action
      = (Layer.mk (xavierW q 1) (defB q 1)).apply
          (hiddenPass activation_fn
            (initd.map (fun p => Layer.mk (xavierW p.1 p.2) (defB p.1 p.2)))
            (state ++ action)) := by
    rw [Critic.forward, hlyrs]
    exact criticLoop_last _ _ _ _
  refine ⟨⟨_, _, hlyrs, hfwd⟩, ?_⟩
  rw [hfwd, Layer.apply_length]
  simp [hW, hB]

/-- Witness for C4, on a 2-layer critic with concrete shape-correct
samplers. -/
theorem critic_forward_scalar_witness :
    (∃ init lastL,
      (mkCritic emptyW onesW zerosB 1 1 [1] id)._lyrs = init ++ [lastL] ∧
      (mkCritic emptyW onesW zerosB 1 1 [1] id).forward [1] [1]
        = lastL.apply (hiddenPass id init ([1] ++ [1]))) ∧
    ((mkCritic emptyW onesW zerosB 1 1 [1] id).forward [1] [1]).length = 1 :=
  critic_forward_scalar emptyW onesW zerosB 1 1 [1] id [1] [1]
    (fun i o => by simp [onesW]) (fun i o => by simp [zerosB])

/-- C10: at construction both `Actor` and `Critic` give every linear layer a
Xavier-uniform weight sample for its own shape, for every choice of
dimensions, while every bias keeps its `nn.Linear` default.  (The `@torch.no_grad()`
context of `_init_weights` concerns autograd tracking only and has no
observable effect on the resulting parameter values modelled here.) -/
theorem networks_xavier_init (defW xavierW : ℕ → ℕ → List (List ℝ)) (defB : ℕ → ℕ → List ℝ)
    (state_dim action_dim : ℕ) (hidden_dims : List ℕ) (activation_fn output_fn : ℝ → ℝ) :
    (mkActor defW xavierW defB state_dim action_dim hidden_dims activation_fn output_fn)._lyrs
      = (layerDims state_dim hidden_dims action_dim).map
          (fun p => Layer.mk (xavierW p.1 p.2) (defB p.1 p.2)) ∧
    (mkCritic defW xavierW defB state_dim action_dim hidden_dims activation_fn)._lyrs
      = (layerDims (state_dim + action_dim) hidden_dims 1).map
          (fun p => Layer.mk (xavierW p.1 p.2) (defB p.1 p.2)) :=
  ⟨mkActor_lyrs defW xavierW defB state_dim action_dim hidden_dims activation_fn output_fn,
   mkCritic_lyrs defW xavierW defB state_dim action_dim hidden_dims activation_fn⟩

/-- C3: when the (numpy-based) observation space's dtype is neither
`np.float64` nor `np.float32`, `train` raises `TypeError` before the agent
is constructed; when it is one of the two, the torch default dtype is set to
the matching precision and no error is raised. -/
theorem precision_alignment_check (d : NpDtype) :
    (d ≠ NpDtype.float64 ∧ d ≠ NpDtype.float32 → ∃ e, setupNumpyEnv d = Except.error e) ∧
    (d = NpDtype.float64 → setupNumpyEnv d = Except.ok ⟨TorchDtype.float64⟩) ∧
    (d = NpDtype.float32 → setupNumpyEnv d = Except.ok ⟨TorchDtype.float32⟩) := by
  cases d <;> simp [setupNumpyEnv, precisionAlignment]

/-- Witness for C3: an `int64` observation space is rejected before agent
construction; `float64` selects double precision. -/
theorem precision_alignment_check_witness :
    (∃ e, setupNumpyEnv NpDtype.int64 = Except.error e) ∧
    setupNumpyEnv NpDtype.float64 = Except.ok ⟨TorchDtype.float64⟩ :=
  ⟨(precision_alignment_check NpDtype.int64).1 ⟨by decide, by decide⟩,
   (precision_alignment_check NpDtype.float64).2.1 rfl⟩

/-! ### Ring-buffer lemmas -/

/-- Overwriting the slot under the cursor and advancing the cursor drops the
oldest element of the ring view and appends the new one. -/
theorem set_rotate_succ {α : Type} (d : List α) (n : ℕ) (x : α) (hn : n < d.length) :
    (d.set n x).rotate ((n + 1) % d.length) = (d.rotate n).tail ++ [x] := by
  have hdrop_ne : d.drop n ≠ [] := by
    intro hnil
    exact absurd (List.drop_eq_nil_iff.1 hnil) (not_le.2 hn)
  have hrhs : (d.rotate n).tail = d.drop (n + 1) ++ d.take n := by
    rw [List.rotate_eq_drop_append_take (le_of_lt hn),
      List.tail_append_of_ne_nil hdrop_ne, List.tail_drop]
  have hlen_take : (d.take n).length = n := by
    rw [List.length_take]
    exact min_eq_left (le_of_lt hn)
  have hset : d.set n x = d.take n ++ x :: d.drop (n + 1) :=
    List.set_eq_take_cons_drop x hn
  rcases Nat.lt_or_ge (n + 1) d.length with hlt | hge
  · rw [Nat.mod_eq_of_lt hlt,
      List.rotate_eq_drop_append_take (by rw [List.length_set]; exact le_of_lt hlt)]
    have hd : (d.set n x).drop (n + 1) = d.drop (n + 1) := by
      rw [List.drop_set]
      simp
    have ht : (d.set n x).take (n + 1) = d.take n ++ [x] := by
      rw [hset]
      have : n + 1 = (d.take n).length + 1 := by rw [hlen_take]
      rw [this, List.take_append]
      rfl
    rw [hd, ht, hrhs, List.append_assoc]
  · have heq : n + 1 = d.length := le_antisymm hn hge
    have hmod : (n + 1) % d.length = 0 := by rw [heq, Nat.mod_self]
    have hdrop2 : d.drop (n + 1) = [] := List.drop_eq_nil_iff.2 (le_of_eq heq.symm)
    rw [hmod, List.rotate_zero, hset, hdrop2, hrhs, hdrop2]
    rfl

/-- One insertion preserves the ring-buffer invariant. -/
theorem ringGood_insert {α : Type} {c : ℕ} (hc : 0 < c) (xs : List α) (b : UER α)
    (x : α) (h : UER.ringGood c xs b) : UER.ringGood c (xs ++ [x]) (b.insert x) := by
  obtain ⟨hcap, hcase⟩ := h
  rcases hcase with ⟨hlt, hdata, hcur⟩ | ⟨hge, hlen, hcur, hrot⟩
  · have hbl : b.data.length < b.capacity := by rw [hdata, hcap]; exact hlt
    have hins : b.insert x = { b with data := b.data ++ [x] } := by
      rw [UER.insert, if_pos hbl]
    rcases Nat.lt_or_ge (xs.length + 1) c with h2 | h2
    · exact ⟨by rw [hins]; exact hcap,
        Or.inl ⟨by simpa using h2, by rw [hins, hdata], by rw [hins]; exact hcur⟩⟩
    · have heq : xs.length + 1 = c := le_antisymm hlt h2
      refine ⟨by rw [hins]; exact hcap, Or.inr ⟨by simpa using h2, ?_, ?_, ?_⟩⟩
      · rw [hins]
        simpa [hdata] using heq
      · rw [hins, List.length_append, hcur]
        simp [heq]
      · rw [hins, List.length_append, hcur]
        simp only [hdata, List.length_cons, List.length_nil]
        have hz : xs.length + 1 - c = 0 := by omega
        rw [hz, List.rotate_zero, List.drop_zero]
  · have hbl : ¬ b.data.length < b.capacity := by rw [hlen, hcap]; exact lt_irrefl c
    have hins : b.insert x =
        { b with data := b.data.set b.cursor x, cursor := (b.cursor + 1) % b.capacity } := by
      rw [UER.insert, if_neg hbl]
    have hcur_lt : b.cursor < c := by rw [hcur]; exact Nat.mod_lt _ hc
    have hcur_lt_len : b.cursor < b.data.length := by rw [hlen]; exact hcur_lt
    refine ⟨by rw [hins]; exact hcap, Or.inr ⟨?_, ?_, ?_, ?_⟩⟩
    · rw [List.length_append]
      exact le_trans hge (Nat.le_add_right _ _)
    · rw [hins]
      simpa [List.length_set] using hlen
    · rw [hins]
      simp only [List.length_append, List.length_cons, List.length_nil]
      rw [hcap, hcur, Nat.mod_add_mod, Nat.sub_add_comm hge]
    · rw [hins]
      simp only [List.length_append, List.length_cons, List.length_nil]
      have hc_eq : b.capacity = b.data.length := by rw [hcap, hlen]
      rw [hc_eq, set_rotate_succ b.data b.cursor x hcur_lt_len, hrot, List.tail_drop]
      have hle : xs.length - c + 1 ≤ xs.length := by omega
      have hidx : xs.length + (0 + 1) - c = xs.length - c + 1 := by omega
      rw [hidx, List.drop_append_of_le_length hle]

/-- Inserting any history into a fresh buffer yields a state satisfying the
ring-buffer invariant. -/
theorem insertAll_ringGood {α : Type} (c : ℕ) (hc : 0 < c) (xs : List α) :
    UER.ringGood c xs ((UER.empty α c).insertAll xs) := by
  induction xs using List.reverseRecOn with
  | nil => exact ⟨rfl, Or.inl ⟨by simpa using hc, rfl, rfl⟩⟩
  | append_singleton t x ih =>
      have hstep : (UER.empty α c).insertAll (t ++ [x]) = ((UER.empty α c).insertAll t).insert x := by
        rw [UER.insertAll, UER.insertAll, List.foldl_append]
        rfl
      rw [hstep]
      exact ringGood_insert hc t _ x ih

/-- C2: for every capacity `c > 0` and every `k ≥ 0`, after inserting
`c + k` elements the buffer holds exactly `c` elements, equal to the most
recently inserted `c` items with the oldest overwritten first — read in ring
order from the write cursor they are exactly the last `c` items of the
history, oldest first.  (`insert` is a total function: it always
succeeds.) -/
theorem uer_capacity_invariant {α : Type} (c k : ℕ) (hc : 0 < c) (xs : List α)
    (hlen : xs.length = c + k) :
    (((UER.empty α c).insertAll xs).data).length = c ∧
    (((UER.empty α c).insertAll xs).data).rotate ((UER.empty α c).insertAll xs).cursor
      = xs.drop k := by
  obtain ⟨-, hcase⟩ := insertAll_ringGood c hc xs
  rcases hcase with ⟨hlt, -, -⟩ | ⟨-, hlen2, -, hrot⟩
  · omega
  · refine ⟨hlen2, ?_⟩
    rw [hlen, Nat.add_sub_cancel_left] at hrot
    exact hrot

/-- Witness for C2: capacity 3, five insertions — the buffer retains the
last three, in ring order. -/
theorem uer_capacity_invariant_witness :
    (0 < 3 ∧ ([10, 11, 12, 13, 14] : List ℕ).length = 3 + 2) ∧
    ((((UER.empty ℕ 3).insertAll [10, 11, 12, 13, 14]).data).length = 3 ∧
     (((UER.empty ℕ 3).insertAll [10, 11, 12, 13, 14]).data).rotate
         ((UER.empty ℕ 3).insertAll [10, 11, 12, 13, 14]).cursor
       = ([10, 11, 12, 13, 14] : List ℕ).drop 2) :=
  ⟨⟨by decide, by decide⟩,
   uer_capacity_invariant 3 2 (by decide) [10, 11, 12, 13, 14] (by decide)⟩

/-! ### Training-loop lemmas -/

/-- The accumulator of the episode loop only prefixes the event list. -/
theorem trainLoopAux_eq {R S A : Type} [AddCommMonoid R] (pol : S → A)
    (env : ℕ → ℕ → S → A → StepRes R S) (reset : ℕ → S) (fuel : ℕ) : ∀ r e evs,
    trainLoopAux pol env reset fuel e r evs
      = Option.map (fun out => evs ++ out) (episodesEvents pol env reset fuel e r) := by
  intro r
  induction r with
  | zero =>
      intro e evs
      simp [trainLoopAux, episodesEvents]
  | succ n ih =>
      intro e evs
      simp only [trainLoopAux, episodesEvents]
      cases hrun : runEpisode pol (env e) (reset e) fuel with
      | none => rfl
      | some res =>
          dsimp only
          rw [ih]
          cases episodesEvents pol env reset fuel (e + 1) n with
          | none => rfl
          | some rest => simp

/-- The checkpoint events of a run are exactly one Actor checkpoint per
episode index divisible by 20. -/
theorem episodesEvents_checkpoints {R S A : Type} [AddCommMonoid R] (pol : S → A)
    (env : ℕ → ℕ → S → A → StepRes R S) (reset : ℕ → S) (fuel : ℕ) : ∀ r e out,
    episodesEvents pol env reset fuel e r = some out →
    out.filter TrainEv.isCheckpoint
      = ((List.range' e r).filter (fun j => j % 20 == 0)).map
          (fun j => TrainEv.checkpoint j NetKind.actor) := by
  intro r
  induction r with
  | zero =>
      intro e out h
      simp only [episodesEvents, Option.some.injEq] at h
      subst h
      rfl
  | succ n ih =>
      intro e out h
      simp only [episodesEvents] at h
      cases hrun : runEpisode pol (env e) (reset e) fuel with
      | none => rw [hrun] at h; exact absurd h (by simp)
      | some res =>
          rw [hrun] at h
          cases hrest : episodesEvents pol env reset fuel (e + 1) n with
          | none => rw [hrest] at h; exact absurd h (by simp)
          | some rest =>
              rw [hrest, Option.some.injEq] at h
              subst h
              rw [List.filter_append, ih (e + 1) rest hrest, List.range'_succ]
              by_cases he : e % 20 = 0
              · simp [episodeEvents, TrainEv.isCheckpoint, he]
              · simp [episodeEvents, TrainEv.isCheckpoint, he]

/-- C6: over a training run, a checkpoint is written exactly on episodes
whose index is divisible by 20, and each checkpoint persists only the
agent's online Actor network — never a critic or a target network. -/
theorem train_checkpoints {R S A : Type} [AddCommMonoid R] (pol : S → A)
    (env : ℕ → ℕ → S → A → StepRes R S) (reset : ℕ → S) (numEpisodes fuel : ℕ)
    (evs : List (TrainEv R))
    (h : trainLoop pol env reset numEpisodes fuel = some evs) :
    evs.filter TrainEv.isCheckpoint
      = ((List.range numEpisodes).filter (fun j => j % 20 == 0)).map
          (fun j => TrainEv.checkpoint j NetKind.actor) := by
  rw [trainLoop, trainLoopAux_eq] at h
  cases hE : episodesEvents pol env reset fuel 0 numEpisodes with
  | none => rw [hE] at h; exact absurd h (by simp)
  | some out =>
      rw [hE] at h
      have hout : out = evs := by simpa using h
      subst hout
      rw [List.range_eq_range']
      exact episodesEvents_checkpoints pol env reset fuel numEpisodes 0 out hE

/-- Witness for C6: a concrete 21-episode run checkpoints the Actor exactly
at episodes 0 and 20. -/
theorem train_checkpoints_witness :
    demoEvs.filter TrainEv.isCheckpoint
      = ((List.range 21).filter (fun j => j % 20 == 0)).map
          (fun j => TrainEv.checkpoint j NetKind.actor) :=
  train_checkpoints demoPol demoEnv demoReset 21 1 demoEvs (by decide)

/-- Through the episode loop, `episodic_return` stays the sum of the rewards
of the env steps taken so far. -/
theorem episodeLoop_return_sum {R S A : Type} [AddCommMonoid R] (pol : S → A)
    (env : ℕ → S → A → StepRes R S) (res : EpisodeRes R S A) :
    ∀ fuel t s ret calls trace,
    episodeLoop pol env t s ret calls trace fuel = some res →
    ret = (trace.map StepRes.reward).sum →
    res.episodicReturn = (res.trace.map StepRes.reward).sum := by
  intro fuel
  induction fuel with
  | zero =>
      intro t s ret calls trace h _
      exact absurd h (by simp [episodeLoop])
  | succ n ih =>
      intro t s ret calls trace h hret
      rw [episodeLoop] at h
      by_cases hterm : ((env t s (pol s)).terminated || (env t s (pol s)).truncated) = true
      · rw [if_pos hterm] at h
        obtain ⟨rfl⟩ := Option.some.injEq _ _ ▸ h.symm
        simp [hret]
      · rw [if_neg hterm] at h
        refine ih _ _ _ _ _ h ?_
        simp [hret]

/-- How many metrics of episode `j` one episode block emits. -/
theorem episodeEvents_countP {R : Type} (e j : ℕ) (ret : R) :
    (episodeEvents e ret).countP (TrainEv.isMetricFor j) = if j = e then 1 else 0 := by
  by_cases hj : j = e
  · subst hj
    by_cases he : j % 20 = 0 <;>
      simp [episodeEvents, TrainEv.isMetricFor, List.countP_cons, List.countP_nil, he]
  · have hne : (e == j) = false := beq_eq_false_iff_ne.2 (Ne.symm hj)
    by_cases he : e % 20 = 0 <;>
      simp [episodeEvents, TrainEv.isMetricFor, List.countP_cons, List.countP_nil, he, hj, hne]

/-- Across a run, every episode index in range gets exactly one metric event
and no index out of range gets any. -/
theorem episodesEvents_countP {R S A : Type} [AddCommMonoid R] (pol : S → A)
    (env : ℕ → ℕ → S → A → StepRes R S) (reset : ℕ → S) (fuel : ℕ) : ∀ r e out j,
    episodesEvents pol env reset fuel e r = some out →
    out.countP (TrainEv.isMetricFor j) = if e ≤ j ∧ j < e + r then 1 else 0 := by
  intro r
  induction r with
  | zero =>
      intro e out j h
      simp only [episodesEvents, Option.some.injEq] at h
      subst h
      simp only [List.countP_nil]
      have : ¬(e ≤ j ∧ j < e + 0) := by omega
      rw [if_neg this]
  | succ n ih =>
      intro e out j h
      simp only [episodesEvents] at h
      cases hrun : runEpisode pol (env e) (reset e) fuel with
      | none => rw [hrun] at h; exact absurd h (by simp)
      | some res =>
          rw [hrun] at h
          cases hrest : episodesEvents pol env reset fuel (e + 1) n with
          | none => rw [hrest] at h; exact absurd h (by simp)
          | some rest =>
              rw [hrest, Option.some.injEq] at h
              subst h
              rw [List.countP_append, episodeEvents_countP, ih (e + 1) rest j hrest]
              by_cases hj : j = e <;> split_ifs <;> omega

/-- Every episode in range contributes its metric event to the run's event
list, with the episode's own return value. -/
theorem episodesEvents_metric_mem {R S A : Type} [AddCommMonoid R] (pol : S → A)
    (env : ℕ → ℕ → S → A → StepRes R S) (reset : ℕ → S) (fuel : ℕ) : ∀ r e out,
    episodesEvents pol env reset fuel e r = some out → ∀ j, e ≤ j → j < e + r →
    ∃ res, runEpisode pol (env j) (reset j) fuel = some res ∧
      TrainEv.metric j res.episodicReturn ∈ out := by
  intro r
  induction r with
  | zero =>
      intro e out h j hle hlt
      omega
  | succ n ih =>
      intro e out h j hle hlt
      simp only [episodesEvents] at h
      cases hrun : runEpisode pol (env e) (reset e) fuel with
      | none => rw [hrun] at h; exact absurd h (by simp)
      | some res =>
          rw [hrun] at h
          cases hrest : episodesEvents pol env reset fuel (e + 1) n with
          | none => rw [hrest] at h; exact absurd h (by simp)
          | some rest =>
              rw [hrest, Option.some.injEq] at h
              subst h
              by_cases hj : j = e
              · subst hj
                exact ⟨res, hrun, by simp [episodeEvents]⟩
              · obtain ⟨res2, hrun2, hmem⟩ := ih (e + 1) rest hrest j (by omega) (by omega)
                exact ⟨res2, hrun2, List.mem_append_right _ hmem⟩

/-- C7: after each episode the training loop emits exactly one scalar metric
for that episode, equal to the sum of the rewards received over that
episode's environment steps (`episodic_return` starts at zero and
accumulates each step's reward). -/
theorem train_metrics {R S A : Type} [AddCommMonoid R] (pol : S → A)
    (env : ℕ → ℕ → S → A → StepRes R S) (reset : ℕ → S) (numEpisodes fuel : ℕ)
    (evs : List (TrainEv R)) (e : ℕ)
    (h : trainLoop pol env reset numEpisodes fuel = some evs) (he : e < numEpisodes) :
    ∃ res, runEpisode pol (env e) (reset e) fuel = some res ∧
      res.episodicReturn = (res.trace.map StepRes.reward).sum ∧
      evs.countP (TrainEv.isMetricFor e) = 1 ∧
      TrainEv.metric e res.episodicReturn ∈ evs := by
  rw [trainLoop, trainLoopAux_eq] at h
  cases hE : episodesEvents pol env reset fuel 0 numEpisodes with
  | none => rw [hE] at h; exact absurd h (by simp)
  | some out =>
      rw [hE] at h
      have hout : out = evs := by simpa using h
      subst hout
      obtain ⟨res, hrun, hmem⟩ :=
        episodesEvents_metric_mem pol env reset fuel numEpisodes 0 out hE e
          (Nat.zero_le e) (by omega)
      refine ⟨res, hrun, ?_, ?_, hmem⟩
      · exact episodeLoop_return_sum pol (env e) res fuel 0 (reset e) 0 [] [] hrun rfl
      · rw [episodesEvents_countP pol env reset fuel numEpisodes 0 out e hE]
        have : (0 ≤ e ∧ e < 0 + numEpisodes) := by omega
        rw [if_pos this]

/-- Witness for C7: episode 0 of a concrete run has exactly one metric
event, valued at its reward sum. -/
theorem train_metrics_witness :
    ∃ res, runEpisode demoPol (demoEnv 0) (demoReset 0) 1 = some res ∧
      res.episodicReturn = (res.trace.map StepRes.reward).sum ∧
      demoEvs.countP (TrainEv.isMetricFor 0) = 1 ∧
      TrainEv.metric 0 res.episodicReturn ∈ demoEvs :=
  train_metrics demoPol demoEnv demoReset 21 1 demoEvs 0 (by decide) (by decide)

theorem callsFor_append {R S A : Type} (l1 l2 : List ((S × A) × StepRes R S)) :
    callsFor (l1 ++ l2) = callsFor l1 ++ callsFor l2 := by
  induction l1 with
  | nil => rfl
  | cons p t ih => simp [callsFor, ih]

/-- Shape invariant of the episode loop: the recorded calls strictly
alternate `compute_action` / `step`, one pair per env interaction; every
interaction before the last is non-terminal; the last is terminal or
truncated. -/
theorem episodeLoop_shape {R S A : Type} [AddCommMonoid R] (pol : S → A)
    (env : ℕ → S → A → StepRes R S) (res : EpisodeRes R S A) :
    ∀ (fuel t : ℕ) (s : S) (ret : R) (calls : List (AgentCall R S A))
      (trace : List (StepRes R S)) (pairs : List (S × A)),
    calls = callsFor (pairs.zip trace) →
    pairs.length = trace.length →
    (∀ r ∈ trace, r.terminated = false ∧ r.truncated = false) →
    episodeLoop pol env t s ret calls trace fuel = some res →
    (∃ pairs2 : List (S × A), pairs2.length = res.trace.length ∧
        res.calls = callsFor (pairs2.zip res.trace)) ∧
    (∀ r ∈ res.trace.dropLast, r.terminated = false ∧ r.truncated = false) ∧
    ∃ lastR, res.trace.getLast? = some lastR ∧ (lastR.terminated || lastR.truncated) = true := by
  intro fuel
  induction fuel with
  | zero =>
      intro t s ret calls trace pairs _ _ _ h
      exact absurd h (by simp [episodeLoop])
  | succ n ih =>
      intro t s ret calls trace pairs hcalls hlen htr h
      rw [episodeLoop] at h
      by_cases hterm : ((env t s (pol s)).terminated || (env t s (pol s)).truncated) = true
      · rw [if_pos hterm] at h
        obtain rfl := Option.some.inj h
        refine ⟨⟨pairs ++ [(s, pol s)], ?_, ?_⟩, ?_, ?_⟩
        · simp [hlen]
        · rw [List.zip_append hlen, callsFor_append, hcalls]
          rfl
        · rw [List.dropLast_concat]
          exact htr
        · exact ⟨env t s (pol s), List.getLast?_concat _, hterm⟩
      · rw [if_neg hterm] at h
        have hf : ((env t s (pol s)).terminated || (env t s (pol s)).truncated) = false := by
          simpa using hterm
        obtain ⟨hf1, hf2⟩ := Bool.or_eq_false_iff.1 hf
        refine ih (t + 1) (env t s (pol s)).next_state _ _ _ (pairs ++ [(s, pol s)]) ?_ ?_ ?_ h
        · rw [List.zip_append hlen, callsFor_append, hcalls]
          rfl
        · simp [hlen]
        · intro r hr
          rcases List.mem_append.1 hr with hr1 | hr2
          · exact htr r hr1
          · rw [List.mem_singleton.1 hr2]
            exact ⟨hf1, hf2⟩

/-- The last agent call of an episode is the `agent.step` recording the last
interaction, with `terminal` equal to its `terminated` flag. -/
theorem episodeLoop_last_call {R S A : Type} [AddCommMonoid R] (pol : S → A)
    (env : ℕ → S → A → StepRes R S) (res : EpisodeRes R S A) :
    ∀ fuel t s ret calls trace,
    episodeLoop pol env t s ret calls trace fuel = some res →
    ∃ s2 a2 r2, res.trace.getLast? = some r2 ∧
      res.calls.getLast? = some (.step s2 a2 r2.reward r2.next_state r2.terminated) := by
  intro fuel
  induction fuel with
  | zero =>
      intro t s ret calls trace h
      exact absurd h (by simp [episodeLoop])
  | succ n ih =>
      intro t s ret calls trace h
      rw [episodeLoop] at h
      by_cases hterm : ((env t s (pol s)).terminated || (env t s (pol s)).truncated) = true
      · rw [if_pos hterm] at h
        obtain rfl := Option.some.inj h
        refine ⟨s, pol s, env t s (pol s), List.getLast?_concat _, ?_⟩
        have hsplit : calls ++ [AgentCall.computeAction s (pol s),
            AgentCall.step s (pol s) (env t s (pol s)).reward (env t s (pol s)).next_state
              (env t s (pol s)).terminated]
            = (calls ++ [AgentCall.computeAction s (pol s)]) ++
              [AgentCall.step s (pol s) (env t s (pol s)).reward (env t s (pol s)).next_state
                (env t s (pol s)).terminated] := by
          simp
        rw [hsplit, List.getLast?_concat]
      · rw [if_neg hterm] at h
        exact ih _ _ _ _ _ h

/-- C8: within every episode the loop calls `agent.compute_action` and
`agent.step` alternately, exactly once each per environment interaction, and
exits only when the environment reports terminated or truncated.  (The
embedding is sequential by construction: each call completes before the
next.) -/
theorem episode_call_alternation {R S A : Type} [AddCommMonoid R] (pol : S → A)
    (env : ℕ → S → A → StepRes R S) (s0 : S) (fuel : ℕ) (res : EpisodeRes R S A)
    (h : runEpisode pol env s0 fuel = some res) :
    (∃ pairs : List (S × A), pairs.length = res.trace.length ∧
        res.calls = callsFor (pairs.zip res.trace)) ∧
    (∀ r ∈ res.trace.dropLast, r.terminated = false ∧ r.truncated = false) ∧
    ∃ lastR, res.trace.getLast? = some lastR ∧ (lastR.terminated || lastR.truncated) = true :=
  episodeLoop_shape pol env res fuel 0 s0 0 [] [] [] rfl rfl (by simp) h

/-- Witness for C8, on a concrete two-step episode. -/
theorem episode_call_alternation_witness :
    (∃ pairs : List (ℕ × ℕ), pairs.length = demoEp.trace.length ∧
        demoEp.calls = callsFor (pairs.zip demoEp.trace)) ∧
    (∀ r ∈ demoEp.trace.dropLast, r.terminated = false ∧ r.truncated = false) ∧
    ∃ lastR, demoEp.trace.getLast? = some lastR ∧
      (lastR.terminated || lastR.truncated) = true :=
  episode_call_alternation demoPol demoEnv2 0 2 demoEp (by decide)

/-- C9: the terminal flag stored with each transition is the env's
`terminated` signal only — when an episode ends by truncation
(`terminated = false`, `truncated = true`), the final recorded transition
carries `terminal = false` even though the loop exits. -/
theorem truncation_records_nonterminal {R S A : Type} [AddCommMonoid R] (pol : S → A)
    (env : ℕ → S → A → StepRes R S) (s0 : S) (fuel : ℕ) (res : EpisodeRes R S A)
    (r : StepRes R S) (h : runEpisode pol env s0 fuel = some res)
    (hlast : res.trace.getLast? = some r)
    (hterm : r.terminated = false) (_htrunc : r.truncated = true) :
    ∃ s2 a2, res.calls.getLast? = some (AgentCall.step s2 a2 r.reward r.next_state false) := by
  obtain ⟨s2, a2, r2, hl2, hc⟩ := episodeLoop_last_call pol env res fuel 0 s0 0 [] [] h
  rw [hlast] at hl2
  obtain rfl := Option.some.inj hl2
  rw [hterm] at hc
  exact ⟨s2, a2, hc⟩

/-- Witness for C9, on a concrete truncated episode. -/
theorem truncation_records_nonterminal_witness :
    ∃ s2 a2, demoEpTrunc.calls.getLast?
      = some (AgentCall.step s2 a2 (1 : ℤ) (0 : ℕ) false) :=
  truncation_records_nonterminal demoPol demoEnvTrunc 0 1 demoEpTrunc ⟨0, 1, false, true⟩
    (by decide) (by decide) rfl rfl

end DeepRL
